import Mathlib

/-!
Verification of the resume-parsing core (`src/parser.py` of the
resume-ats-optimizer repository) against its natural-language specification.

The development shallowly embeds the extraction pipeline:

* Python string primitives used by the code (`lower`, `title`, `strip`,
  whitespace `split`, substring containment) are modelled over `List Char`;
* the `re` module fragment the parser uses (search, finditer, split,
  `IGNORECASE` literals, greedy and lazy quantifiers, one capture group,
  word boundaries) is modelled by a priority-ordered backtracking matcher
  returning all ways a pattern can match a prefix of the input, with
  leftmost-first search on top;
* the extractors (`extract_contact_info`, `extract_skills`,
  `extract_education`, `extract_experience`) and the orchestrator `parse`
  are translated line by line, with the NER capability and file reads
  passed in as explicit parameters.
-/

namespace ResumeParser

/-! ## Python character classes and string helpers -/

/-- Python `str.isspace`-style whitespace (the ASCII part used by `\s`). -/
def isPySpace (c : Char) : Bool :=
  c == ' ' || c == '\t' || c == '\n' || c == '\r' || c == '\x0b' || c == '\x0c'

/-- Regex `\w`: ASCII letters, digits, underscore. -/
def isWordChar (c : Char) : Bool := c.isAlphanum || c == '_'

/-- The class `[\w\s&,.]` of the company pattern. -/
def isCompanyChar (c : Char) : Bool :=
  isWordChar c || isPySpace c || c == '&' || c == ',' || c == '.'

/-- The separator class `[-.\s]` of the phone patterns. -/
def isSepChar (c : Char) : Bool := c == '-' || c == '.' || isPySpace c

/-- Python `str.lower` (ASCII). -/
def pyLower (l : List Char) : List Char := l.map Char.toLower

/-- Python `str.title` (ASCII): a letter is upper-cased if the previous
character is not a letter, lower-cased otherwise. -/
def pyTitleAux : Bool → List Char → List Char
  | _, [] => []
  | prevAlpha, c :: cs =>
    if c.isAlpha then
      (if prevAlpha then c.toLower else c.toUpper) :: pyTitleAux true cs
    else
      c :: pyTitleAux false cs

/-- Python `str.title` on strings. -/
def pyTitle (s : String) : String := String.mk (pyTitleAux false s.toList)

/-- Python `str.strip`: remove leading and trailing whitespace. -/
def pyStrip (l : List Char) : List Char :=
  ((l.dropWhile isPySpace).reverse.dropWhile isPySpace).reverse

/-- Maximal runs of characters satisfying `p` (used for Python
`str.split()` with `p` = non-space, and for word decomposition). -/
def splitRunsAux (p : Char → Bool) : List Char → List Char → List (List Char)
  | [], cur => if cur.isEmpty then [] else [cur.reverse]
  | c :: cs, cur =>
    if p c then splitRunsAux p cs (c :: cur)
    else if cur.isEmpty then splitRunsAux p cs []
    else cur.reverse :: splitRunsAux p cs []

/-- Maximal runs of characters satisfying `p`. -/
def splitRuns (p : Char → Bool) (l : List Char) : List (List Char) :=
  splitRunsAux p l []

/-- Python `str.split()` with no argument: whitespace-separated words. -/
def pyWords (l : List Char) : List (List Char) :=
  splitRuns (fun c => !isPySpace c) l

/-- Python substring containment `needle in hay`. -/
def strIn (needle : List Char) : List Char → Bool
  | [] => needle.isEmpty
  | c :: t => needle.isPrefixOf (c :: t) || strIn needle t

/-- Python `str.endswith`. -/
def pyEndsWith (s suf : String) : Bool := suf.data.isSuffixOf s.data

/-! ## A small regex engine

Patterns are abstract syntax trees; `compile` returns, for a pattern, the
list of all ways it can match a prefix of the input, in backtracking
priority order (the head is the way Python's `re` engine commits to).
`prev` is the character immediately before the current position (for `\b`).
Every quantified subpattern in the parser's regexes consumes at least one
character per iteration, so iteration fuel equal to the input length is
exact. -/

/-- One way a pattern matches a prefix: the consumed prefix, the content of
capture group 1 (if the way passed through a group), and the rest. -/
structure MRes where
  consumed : List Char
  grp : Option (List Char)
  rest : List Char
deriving DecidableEq, Repr

/-- Regex abstract syntax: empty, character class, word boundary,
concatenation, prioritized alternation, capture group, greedy star,
lazy star, greedy option. -/
inductive RE where
  | eps
  | cls (f : Char → Bool)
  | wordB
  | cat (a b : RE)
  | alt (a b : RE)
  | grp (a : RE)
  | starG (a : RE)
  | starL (a : RE)
  | opt (a : RE)

/-- The character preceding the rest of the input after consuming
`consumed`, given the character `prev` preceding the whole input. -/
def prevAfter (consumed : List Char) (prev : Option Char) : Option Char :=
  match consumed.getLast? with
  | some c => some c
  | none => prev

/-- Combine a way for the left part of a concatenation with a way for the
right part. -/
def mcat (r1 r2 : MRes) : MRes :=
  ⟨r1.consumed ++ r2.consumed, r1.grp <|> r2.grp, r2.rest⟩

/-- Greedy iteration of a body matcher: prefer more iterations; skip ways
where the body consumed nothing (Python stops repeating on an empty
match). -/
def iterG (m : Option Char → List Char → List MRes) :
    Nat → Option Char → List Char → List MRes
  | 0, _, cs => [⟨[], none, cs⟩]
  | n + 1, prev, cs =>
    ((m prev cs).flatMap fun r1 =>
      if r1.consumed.isEmpty then []
      else (iterG m n (prevAfter r1.consumed prev) r1.rest).map (mcat r1)) ++
    [⟨[], none, cs⟩]

/-- Lazy iteration of a body matcher: prefer fewer iterations. -/
def iterL (m : Option Char → List Char → List MRes) :
    Nat → Option Char → List Char → List MRes
  | 0, _, cs => [⟨[], none, cs⟩]
  | n + 1, prev, cs =>
    ⟨[], none, cs⟩ ::
    ((m prev cs).flatMap fun r1 =>
      if r1.consumed.isEmpty then []
      else (iterL m n (prevAfter r1.consumed prev) r1.rest).map (mcat r1))

/-- All ways `re` matches a prefix of `cs`, in backtracking priority
order; `prev` is the character before `cs` in the surrounding text. -/
def compile : RE → Option Char → List Char → List MRes
  | .eps, _, cs => [⟨[], none, cs⟩]
  | .cls f, _, cs =>
    match cs with
    | [] => []
    | c :: rest => if f c then [⟨[c], none, rest⟩] else []
  | .wordB, prev, cs =>
    if (prev.any isWordChar) != (cs.head?.any isWordChar) then [⟨[], none, cs⟩] else []
  | .cat a b, prev, cs =>
    (compile a prev cs).flatMap fun r1 =>
      (compile b (prevAfter r1.consumed prev) r1.rest).map (mcat r1)
  | .alt a b, prev, cs => compile a prev cs ++ compile b prev cs
  | .grp a, prev, cs =>
    (compile a prev cs).map fun r => ⟨r.consumed, some r.consumed, r.rest⟩
  | .starG a, prev, cs => iterG (compile a) cs.length prev cs
  | .starL a, prev, cs => iterL (compile a) cs.length prev cs
  | .opt a, prev, cs => compile a prev cs ++ [⟨[], none, cs⟩]

/-- `re.search` from position `pos`: leftmost match wins; at a position the
engine commits to the first way in priority order. Returns the match
position, the character before it, and the way. -/
def searchFrom (re : RE) : Nat → Option Char → List Char →
    Option (Nat × Option Char × MRes)
  | pos, prev, cs =>
    match compile re prev cs with
    | r :: _ => some (pos, prev, r)
    | [] =>
      match cs with
      | [] => none
      | c :: cs' => searchFrom re (pos + 1) (some c) cs'

/-- `re.search` on a whole text. -/
def reSearch (re : RE) (l : List Char) : Option (Nat × Option Char × MRes) :=
  searchFrom re 0 none l

/-- `re.search(...).group()`: the full matched text, if any. -/
def searchStr (re : RE) (l : List Char) : Option String :=
  (reSearch re l).map fun x => String.mk x.2.2.consumed

/-- `re.finditer` driver: repeatedly search, resume after each match
(skipping one character after an empty match, as Python does). -/
def finditFrom (re : RE) : Nat → Nat → Option Char → List Char → List (Nat × MRes)
  | 0, _, _, _ => []
  | fuel + 1, pos, prev, cs =>
    match searchFrom re pos prev cs with
    | none => []
    | some (p, pv, r) =>
      (p, r) ::
        (if r.consumed.isEmpty then
          match r.rest with
          | [] => []
          | c :: cs' => finditFrom re fuel (p + 1) (some c) cs'
        else
          finditFrom re fuel (p + r.consumed.length) (prevAfter r.consumed pv) r.rest)

/-- `re.finditer`: all non-overlapping matches, leftmost-first, as
(start position, way) pairs. -/
def finditer (re : RE) (l : List Char) : List (Nat × MRes) :=
  finditFrom re (l.length + 1) 0 none l

/-- Cut `l` at the given (position, length) spans, returning the pieces
between them (`re.split` with no capture groups). -/
def splitByMatches (l : List Char) : List (Nat × Nat) → Nat → List (List Char)
  | [], c0 => [l.drop c0]
  | (p, len) :: rest, c0 => ((l.take p).drop c0) :: splitByMatches l rest (p + len)

/-- `re.split(re, l)` for a pattern with no capture groups. -/
def pySplit (re : RE) (l : List Char) : List (List Char) :=
  splitByMatches l ((finditer re l).map fun pr => (pr.1, pr.2.consumed.length)) 0

/-! ## Pattern constructors -/

/-- A literal character. -/
def chr (c : Char) : RE := .cls (fun x => x == c)

/-- A case-insensitive literal character (`re.IGNORECASE`). -/
def chrCI (c : Char) : RE := .cls (fun x => x.toLower == c.toLower)

/-- Concatenation of a list of patterns. -/
def catList (l : List RE) : RE := l.foldr RE.cat .eps

/-- A case-insensitive literal string. -/
def litCI (s : String) : RE := catList (s.toList.map chrCI)

/-- Greedy `+`. -/
def plusG (a : RE) : RE := .cat a (.starG a)

/-- Lazy `+?`. -/
def plusL (a : RE) : RE := .cat a (.starL a)

/-- `\d`. -/
def digitRE : RE := .cls Char.isDigit

/-- `\s`. -/
def spRE : RE := .cls isPySpace

/-- `[-.\s]?`. -/
def sepOpt : RE := .opt (.cls isSepChar)

/-! ## The parser's patterns, compiled from `parser.py` -/

/-- `\b[A-Za-z0-9._%+-]+@[A-Za-z0-9.-]+\.[A-Z|a-z]{2,}\b` (the `|` inside
the final class is part of the source pattern). -/
def emailRE : RE :=
  catList [.wordB,
    plusG (.cls fun c => c.isAlphanum || c == '.' || c == '_' || c == '%' || c == '+' || c == '-'),
    chr '@',
    plusG (.cls fun c => c.isAlphanum || c == '.' || c == '-'),
    chr '.',
    .cls (fun c => c.isUpper || c == '|' || c.isLower),
    .cls (fun c => c.isUpper || c == '|' || c.isLower),
    .starG (.cls fun c => c.isUpper || c == '|' || c.isLower),
    .wordB]

/-- `\+?\d{1,3}[-.\s]?\(?\d{3}\)?[-.\s]?\d{3}[-.\s]?\d{4}` (greedy
`{1,3}` encoded as one mandatory digit plus nested greedy options). -/
def phone1 : RE :=
  catList [.opt (chr '+'),
    digitRE, .opt (.cat digitRE (.opt digitRE)),
    sepOpt, .opt (chr '('), digitRE, digitRE, digitRE, .opt (chr ')'),
    sepOpt, digitRE, digitRE, digitRE,
    sepOpt, digitRE, digitRE, digitRE, digitRE]

/-- `\(\d{3}\)\s*\d{3}[-.\s]?\d{4}`. -/
def phone2 : RE :=
  catList [chr '(', digitRE, digitRE, digitRE, chr ')', .starG spRE,
    digitRE, digitRE, digitRE, sepOpt, digitRE, digitRE, digitRE, digitRE]

/-- `\d{3}[-.\s]?\d{3}[-.\s]?\d{4}`. -/
def phone3 : RE :=
  catList [digitRE, digitRE, digitRE, sepOpt, digitRE, digitRE, digitRE,
    sepOpt, digitRE, digitRE, digitRE, digitRE]

/-- The prioritized phone pattern list of `extract_contact_info`. -/
def phonePatterns : List RE := [phone1, phone2, phone3]

/-- `linkedin\.com/in/[\w-]+` with `re.IGNORECASE`. -/
def linkedinRE : RE :=
  catList [litCI "linkedin", chr '.', litCI "com", chr '/', litCI "in", chr '/',
    plusG (.cls fun c => isWordChar c || c == '-')]

/-- `github\.com/[\w-]+` with `re.IGNORECASE`. -/
def githubRE : RE :=
  catList [litCI "github", chr '.', litCI "com", chr '/',
    plusG (.cls fun c => isWordChar c || c == '-')]

/-- `[\w\s]` as used in the degree patterns. -/
def wsWordRE : RE := .cls (fun c => isWordChar c || isPySpace c)

/-- `(?:of\s+)` inside the degree patterns. -/
def ofPart : RE := .cat (litCI "of") (plusG spRE)

/-- Degree pattern
`(Bachelor|Master|PhD|B\.S\.|M\.S\.|Ph\.D\.|BS|MS)\s+(?:of\s+)?(?:Science|Arts|Engineering|Computer Science|Business|in\s+[\w\s]+)`
with `re.IGNORECASE`. -/
def degree1 : RE :=
  .cat (.alt (litCI "Bachelor") (.alt (litCI "Master") (.alt (litCI "PhD")
        (.alt (litCI "B.S.") (.alt (litCI "M.S.") (.alt (litCI "Ph.D.")
        (.alt (litCI "BS") (litCI "MS"))))))))
    (.cat (plusG spRE)
      (.cat (.opt ofPart)
        (.alt (litCI "Science") (.alt (litCI "Arts") (.alt (litCI "Engineering")
          (.alt (litCI "Computer Science") (.alt (litCI "Business")
            (.cat (litCI "in") (.cat (plusG spRE) (plusG wsWordRE))))))))))

/-- Degree pattern `(Associate|Diploma)\s+(?:of\s+)?[\w\s]+` with
`re.IGNORECASE`. -/
def degree2 : RE :=
  .cat (.alt (litCI "Associate") (litCI "Diploma"))
    (.cat (plusG spRE) (.cat (.opt ofPart) (plusG wsWordRE)))

/-- The degree pattern list of `extract_education`, in source order. -/
def degreePatterns : List RE := [degree1, degree2]

/-- Job-title pattern
`(Engineer|Analyst|Developer|Manager|Director|Specialist|Consultant|Coordinator)`
with `re.IGNORECASE`. -/
def jobF1 : RE :=
  .alt (litCI "Engineer") (.alt (litCI "Analyst") (.alt (litCI "Developer")
    (.alt (litCI "Manager") (.alt (litCI "Director") (.alt (litCI "Specialist")
    (.alt (litCI "Consultant") (litCI "Coordinator")))))))

/-- Job-title pattern `(Senior|Junior|Lead|Principal|Staff|Chief)\s+\w+`
with `re.IGNORECASE`. -/
def jobF2 : RE :=
  .cat (.alt (litCI "Senior") (.alt (litCI "Junior") (.alt (litCI "Lead")
      (.alt (litCI "Principal") (.alt (litCI "Staff") (litCI "Chief"))))))
    (.cat (plusG spRE) (plusG (.cls isWordChar)))

/-- The job-title pattern list of `extract_experience`, in source order. -/
def jobPatterns : List RE := [jobF1, jobF2]

/-- The terminator `(?:\||•|\n|20\d{2})` of the company pattern. -/
def termRE : RE :=
  .alt (chr '|') (.alt (chr '•') (.alt (chr '\n')
    (catList [chr '2', chr '0', digitRE, digitRE])))

/-- Company pattern `at\s+([\w\s&,.]+?)(?:\||•|\n|20\d{2})` with
`re.IGNORECASE`. -/
def companyRE : RE :=
  .cat (chrCI 'a') (.cat (chrCI 't')
    (.cat (plusG spRE) (.cat (.grp (plusL (.cls isCompanyChar))) termRE)))

/-- `\n\s*\n`, the blank-line section splitter of `extract_experience`. -/
def blankRE : RE := catList [chr '\n', .starG spRE, chr '\n']

/-! ## Data model -/

/-- The `contact` dictionary of `extract_contact_info`. -/
structure ContactInfo where
  email : Option String
  phone : Option String
  linkedin : Option String
  github : Option String
deriving DecidableEq, Repr

/-- An education record of `extract_education`. -/
structure EducationEntry where
  degree : String
  details : String
deriving DecidableEq, Repr

/-- An experience record of `extract_experience`. -/
structure ExperienceEntry where
  section_text : String
  has_job_title : Bool
  company : Option String
deriving DecidableEq, Repr

/-- A named entity produced by the injected NER capability
(`recognizeEntities(text) -> sequence of {text, category}` in the spec;
`doc.ents` with `ent.text` / `ent.label_` in the code). -/
structure Entity where
  text : String
  label : String

/-- The dictionary returned by `parse`. -/
structure ParsedResume where
  raw_text : String
  contact : ContactInfo
  skills : List String
  education : List EducationEntry
  experience : List ExperienceEntry
  word_count : Nat
  parsed_successfully : Bool
deriving DecidableEq, Repr

/-! ## Extractors -/

/-- Try a prioritized pattern list; return the first match of the first
pattern that matches (the phone loop of `extract_contact_info`). -/
def firstSearch : List RE → List Char → Option String
  | [], _ => none
  | p :: rest, l =>
    match searchStr p l with
    | some m => some m
    | none => firstSearch rest l

/-- `extract_contact_info`. -/
def extract_contact_info (text : String) : ContactInfo :=
  { email := searchStr emailRE text.toList
    phone := firstSearch phonePatterns text.toList
    linkedin := searchStr linkedinRE text.toList
    github := searchStr githubRE text.toList }

/-- The skills lexicon built in `__init__`, category by category. -/
def skills_keywords : List (String × List String) :=
  [("programming", ["python", "java", "javascript", "c++", "r", "sql", "c#"]),
   ("data", ["pandas", "numpy", "tensorflow", "pytorch", "spark", "hadoop"]),
   ("tools", ["git", "docker", "kubernetes", "jenkins", "aws", "azure", "gcp"]),
   ("analytics", ["tableau", "power bi", "excel", "sas", "stata", "spss"]),
   ("databases", ["mysql", "postgresql", "mongodb", "redis", "oracle", "sqlite"]),
   ("methodologies", ["agile", "scrum", "kanban", "waterfall", "devops", "ci/cd"])]

/-- The elements added to the `skills` set, in program order: title-cased
lexicon keywords found in the lower-cased text, then entity texts tagged
ORG or PRODUCT whose stripped length lies strictly between 2 and 30. -/
def skillsAcc (text : String) (ents : List Entity) : List String :=
  (skills_keywords.flatMap fun cat =>
    cat.2.filterMap fun kw =>
      if strIn kw.toList (pyLower text.toList) then some (pyTitle kw) else none) ++
  ents.filterMap fun en =>
    if en.label = "ORG" ∨ en.label = "PRODUCT" then
      let ps := String.mk (pyStrip en.text.toList)
      if 2 < ps.length ∧ ps.length < 30 then some ps else none
    else none

/-- Python `sorted(list(s))` for a set `s` collected from the list `l`:
the ascending enumeration of the distinct elements. -/
def pySortedSet (l : List String) : List String :=
  List.insertionSort (· ≤ ·) l.dedup

/-- `extract_skills`, with the NER output passed explicitly. -/
def extract_skills (text : String) (ents : List Entity) : List String :=
  pySortedSet (skillsAcc text ents)

/-- `_extract_education_context`: 200 characters of context on either
side of the span `[s, e)`, clipped to the document, stripped. -/
def extract_education_context (l : List Char) (s e : Nat) : String :=
  String.mk (pyStrip (((l.take (min l.length (e + 200))).drop (s - 200))))

/-- Build one education record from a match of a degree pattern. -/
def mkEduEntry (l : List Char) (p : Nat) (r : MRes) : EducationEntry :=
  { degree := String.mk r.consumed
    details := extract_education_context l p (p + r.consumed.length) }

/-- `extract_education`: for each degree pattern in order, one record per
`finditer` match. -/
def extract_education (text : String) : List EducationEntry :=
  degreePatterns.flatMap fun re =>
    (finditer re text.toList).map fun pr => mkEduEntry text.toList pr.1 pr.2

/-- The inner pattern loop of `extract_experience`: does some pattern in
the list match the section? (The loop breaks at the first hit.) -/
def sectionHit : List RE → List Char → Bool
  | [], _ => false
  | p :: rest, sec =>
    if (reSearch p sec).isSome then true else sectionHit rest sec

/-- `company_match.group(1) if company_match else None` for a section. -/
def companyOf (sec : List Char) : Option String :=
  (reSearch companyRE sec).bind fun x => x.2.2.grp.map String.mk

/-- The experience record appended for a qualifying section. -/
def mkExpEntry (sec : List Char) : ExperienceEntry :=
  { section_text := String.mk (sec.take 200)
    has_job_title := true
    company := companyOf sec }

/-- The section loop of `extract_experience`: append one record per
qualifying section. -/
def expLoop : List (List Char) → List ExperienceEntry
  | [] => []
  | sec :: rest =>
    if sectionHit jobPatterns sec then mkExpEntry sec :: expLoop rest
    else expLoop rest

/-- `extract_experience`: split on blank lines, keep qualifying sections,
return the first five records. -/
def extract_experience (text : String) : List ExperienceEntry :=
  (expLoop (pySplit blankRE text.toList)).take 5

/-! ## Orchestrator -/

/-- `extract_text_from_pdf`: the outcome of opening/reading/decoding the
PDF is passed in as an `Except`; on success the page texts are
concatenated with no separator, any failure is caught and yields `""`. -/
def extract_text_from_pdf (pdfRead : Except String (List String)) : String :=
  match pdfRead with
  | .ok pages => String.join pages
  | .error _ => ""

/-- The text-acquisition step of `parse`: PDF paths go through
`extract_text_from_pdf` (failures caught there), other paths through the
plain file read, whose failure propagates. -/
def textOf (path : String) (pdfRead : Except String (List String))
    (txtRead : Except String String) : Except String String :=
  if pyEndsWith path ".pdf" then .ok (extract_text_from_pdf pdfRead) else txtRead

/-- The record assembled by `parse` from the extracted text. -/
def parseRecord (text : String) (ents : List Entity) : ParsedResume :=
  { raw_text := text
    contact := extract_contact_info text
    skills := extract_skills text ents
    education := extract_education text
    experience := extract_experience text
    word_count := (pyWords text.toList).length
    parsed_successfully := true }

/-- `parse`: acquire the text, run the four extractors, assemble the
record. `ner` is the injected entity-recognition capability. -/
def parse (path : String) (pdfRead : Except String (List String))
    (txtRead : Except String String) (ner : String → List Entity) :
    Except String ParsedResume :=
  (textOf path pdfRead txtRead).map fun t => parseRecord t (ner t)

/-- `parse` with the enumeration order of the Python `set` of skills made
explicit: `enum` stands for `list(skills)`, whose order the language does
not fix; the code sorts it before returning. -/
def parseRecordEnum (text : String) (ents : List Entity) (enum : List String) :
    ParsedResume :=
  { parseRecord text ents with skills := List.insertionSort (· ≤ ·) enum }

/-! ## Helper lemmas: sorted sets -/

theorem pySortedSet_sorted (l : List String) :
    (pySortedSet l).Sorted (· ≤ ·) :=
  List.sorted_insertionSort _ _

theorem pySortedSet_nodup (l : List String) : (pySortedSet l).Nodup :=
  (List.perm_insertionSort _ _).nodup_iff.mpr l.nodup_dedup

theorem mem_pySortedSet {x : String} {l : List String} :
    x ∈ pySortedSet l ↔ x ∈ l := by
  rw [pySortedSet, (List.perm_insertionSort _ _).mem_iff, List.mem_dedup]

theorem pySortedSet_pairwise_lt (l : List String) :
    (pySortedSet l).Pairwise (· < ·) :=
  ((pySortedSet_sorted l).and (pySortedSet_nodup l)).imp
    fun h => lt_of_le_of_ne h.1 h.2

theorem pySortedSet_perm_eq {e d : List String} (h : e.Perm d) :
    List.insertionSort (· ≤ ·) e = List.insertionSort (· ≤ ·) d :=
  List.eq_of_perm_of_sorted
    (((List.perm_insertionSort _ e).trans h).trans (List.perm_insertionSort _ d).symm)
    (List.sorted_insertionSort _ _) (List.sorted_insertionSort _ _)

/-! ## Helper lemmas: substring containment -/

theorem isPrefixOf_map {f : Char → Char} :
    ∀ {n h : List Char}, n.isPrefixOf h = true →
      (n.map f).isPrefixOf (h.map f) = true
  | [], _, _ => by simp [List.isPrefixOf]
  | _ :: _, [], hp => by simp [List.isPrefixOf] at hp
  | a :: n, b :: h, hp => by
    simp only [List.isPrefixOf, Bool.and_eq_true, beq_iff_eq] at hp ⊢
    exact ⟨by rw [hp.1], isPrefixOf_map hp.2⟩

theorem strIn_map {f : Char → Char} {n : List Char} :
    ∀ {h : List Char}, strIn n h = true → strIn (n.map f) (h.map f) = true
  | [], hp => by
    simp only [strIn, List.isEmpty_iff] at hp
    simp [hp, strIn]
  | c :: t, hp => by
    simp only [strIn, Bool.or_eq_true] at hp
    rcases hp with hp | hp
    · simp only [List.map_cons, strIn, Bool.or_eq_true]
      exact Or.inl (by simpa using isPrefixOf_map (f := f) (h := c :: t) hp)
    · simp only [List.map_cons, strIn, Bool.or_eq_true]
      exact Or.inr (strIn_map hp)

theorem strIn_of_mem {c : Char} : ∀ {l : List Char}, c ∈ l → strIn [c] l = true
  | a :: t, hm => by
    rcases List.mem_cons.mp hm with h | h
    · subst h
      simp [strIn, List.isPrefixOf]
    · simp [strIn, strIn_of_mem h]

/-! ## Helper lemmas: the skills accumulator -/

theorem mem_skillsAcc_of_kw {text : String} {ents : List Entity}
    (cat : String) (kws : List String) (kw : String)
    (h1 : (cat, kws) ∈ skills_keywords) (h2 : kw ∈ kws)
    (h3 : strIn kw.toList (pyLower text.toList) = true) :
    pyTitle kw ∈ skillsAcc text ents := by
  have h3' : strIn kw.data (pyLower text.data) = true := h3
  refine List.mem_append_left _ (List.mem_flatMap.mpr ⟨(cat, kws), h1, ?_⟩)
  exact List.mem_filterMap.mpr ⟨kw, h2, by simp [h3']⟩

/-- C1: the skills extractor matches lexicon keywords case-insensitively by
substring containment in the lower-cased text, adds hits in title-cased
form, and returns a deduplicated, strictly ascending list; any text
containing both "aws" and "AWS" yields exactly one entry "Aws". -/
theorem extract_skills_spec (text : String) (ents : List Entity) :
    (extract_skills text ents).Pairwise (· < ·) ∧
    (∀ cat kws kw, (cat, kws) ∈ skills_keywords → kw ∈ kws →
      strIn kw.toList (pyLower text.toList) = true →
      pyTitle kw ∈ extract_skills text ents) ∧
    (strIn "aws".toList text.toList = true →
      strIn "AWS".toList text.toList = true →
      (extract_skills text ents).count "Aws" = 1) := by
  refine ⟨pySortedSet_pairwise_lt _, fun cat kws kw h1 h2 h3 => ?_, fun ha _ => ?_⟩
  · exact mem_pySortedSet.mpr (mem_skillsAcc_of_kw cat kws kw h1 h2 h3)
  · have hl : strIn "aws".toList (pyLower text.toList) = true := by
      have := strIn_map (f := Char.toLower) ha
      simpa [pyLower] using this
    have hm : "Aws" ∈ extract_skills text ents := by
      have hac : pyTitle "aws" ∈ skillsAcc text ents :=
        mem_skillsAcc_of_kw "tools"
          ["git", "docker", "kubernetes", "jenkins", "aws", "azure", "gcp"] "aws"
          (by decide) (by decide) hl
      have e : pyTitle "aws" = "Aws" := by decide
      rw [e] at hac
      exact mem_pySortedSet.mpr hac
    exact List.count_eq_one_of_mem (pySortedSet_nodup _) hm

/-- Witness for C1 at a concrete text containing "aws" and "AWS". -/
theorem extract_skills_spec_witness :
    strIn "aws".toList "ski aws AWS".toList = true ∧
    strIn "AWS".toList "ski aws AWS".toList = true ∧
    (extract_skills "ski aws AWS" []).count "Aws" = 1 :=
  ⟨by decide, by decide,
   (extract_skills_spec "ski aws AWS" []).2.2 (by decide) (by decide)⟩

/-- C10: the lexicon contains the single-character keyword "r", so any text
containing the letter r (in either case, anywhere) yields the skill "R". -/
theorem skills_contains_R (text : String) (ents : List Entity)
    (h : 'r' ∈ text.toList ∨ 'R' ∈ text.toList) :
    "R" ∈ extract_skills text ents := by
  have hr : 'r' ∈ pyLower text.toList := by
    rcases h with h | h
    · exact List.mem_map.mpr ⟨'r', h, rfl⟩
    · exact List.mem_map.mpr ⟨'R', h, rfl⟩
  have hac : pyTitle "r" ∈ skillsAcc text ents :=
    mem_skillsAcc_of_kw "programming"
      ["python", "java", "javascript", "c++", "r", "sql", "c#"] "r"
      (by decide) (by decide) (strIn_of_mem hr)
  have e : pyTitle "r" = "R" := by decide
  rw [e] at hac
  exact mem_pySortedSet.mpr hac

/-- Witness for C10: the letter r inside the unrelated word "word". -/
theorem skills_contains_R_witness : "R" ∈ extract_skills "word" [] :=
  skills_contains_R "word" [] (Or.inl (by decide))

/-- C2: the phone patterns are tried in their fixed priority order; the
first match of the first matching pattern is returned, and once a pattern
matches, the later entries of the list are never consulted (the result
does not depend on them). -/
theorem phone_priority (l : List Char) :
    (∀ text : String,
      (extract_contact_info text).phone = firstSearch phonePatterns text.toList) ∧
    (∀ m, searchStr phone1 l = some m →
      ∀ q r, firstSearch [phone1, q, r] l = some m) ∧
    (searchStr phone1 l = none →
      ∀ m, searchStr phone2 l = some m →
      ∀ r, firstSearch [phone1, phone2, r] l = some m) ∧
    (searchStr phone1 l = none → searchStr phone2 l = none →
      firstSearch phonePatterns l = searchStr phone3 l) := by
  refine ⟨fun _ => rfl, fun m h1 q r => ?_, fun h1 m h2 r => ?_, fun h1 h2 => ?_⟩
  · simp [firstSearch, h1]
  · simp [firstSearch, h1, h2]
  · rcases h3 : searchStr phone3 l with _ | m <;>
      simp [phonePatterns, firstSearch, h1, h2, h3]

/-- Witness for C2: the first pattern matches the leading international
number, and the result ignores the later patterns even though the second
pattern also matches a parenthesized number further right. -/
theorem phone_priority_witness :
    searchStr phone1 "+1-555-123-4567 (999) 888-7777".toList =
      some "+1-555-123-4567" ∧
    (searchStr phone2 "+1-555-123-4567 (999) 888-7777".toList).isSome = true ∧
    firstSearch [phone1, phone2, phone3] "+1-555-123-4567 (999) 888-7777".toList =
      some "+1-555-123-4567" :=
  ⟨by decide, by decide,
   (phone_priority "+1-555-123-4567 (999) 888-7777".toList).2.1 _ (by decide)
     phone2 phone3⟩

/-- C7: a PDF read/decode failure is caught and degrades to the empty
string, so `parse` still returns a record; a non-PDF read failure is not
caught and propagates. -/
theorem pdf_failure_policy (path : String) (pdfRead : Except String (List String))
    (txtRead : Except String String) (ner : String → List Entity) (msg : String) :
    (extract_text_from_pdf (.error msg) = "") ∧
    (pyEndsWith path ".pdf" = true →
      parse path (.error msg) txtRead ner = .ok (parseRecord "" (ner ""))) ∧
    (pyEndsWith path ".pdf" = false →
      parse path pdfRead (.error msg) ner = .error msg) := by
  refine ⟨rfl, fun h => ?_, fun h => ?_⟩
  · simp [parse, textOf, h, extract_text_from_pdf, Except.map]
  · simp [parse, textOf, h, Except.map]

/-- Witness for C7 on concrete paths. -/
theorem pdf_failure_policy_witness :
    (pyEndsWith "r.pdf" ".pdf" = true) ∧
    parse "r.pdf" (.error "boom") (.ok "x") (fun _ => []) =
      .ok (parseRecord "" []) ∧
    (pyEndsWith "r.txt" ".pdf" = false) ∧
    parse "r.txt" (.ok []) (.error "boom") (fun _ => []) = .error "boom" :=
  ⟨by decide,
   (pdf_failure_policy "r.pdf" (.error "boom") (.ok "x") (fun _ => []) "boom").2.1
     (by decide),
   by decide,
   (pdf_failure_policy "r.txt" (.ok []) (.error "boom") (fun _ => []) "boom").2.2
     (by decide)⟩

/-- C8: whenever `parse` returns a record, its success flag is true,
unconditionally. -/
theorem parse_succeeded (path : String) (pdfRead : Except String (List String))
    (txtRead : Except String String) (ner : String → List Entity)
    (r : ParsedResume) (h : parse path pdfRead txtRead ner = .ok r) :
    r.parsed_successfully = true := by
  cases htx : textOf path pdfRead txtRead with
  | ok t =>
    rw [parse, htx, Except.map] at h
    cases h
    rfl
  | error e =>
    rw [parse, htx, Except.map] at h
    cases h

/-- Witness for C8: a PDF whose read fails still yields a record with all
fields degenerate and the success flag true. -/
theorem parse_succeeded_witness :
    parse "a.pdf" (.error "e") (.ok "x") (fun _ => []) =
      .ok (parseRecord "" []) ∧
    (parseRecord "" []).parsed_successfully = true := by
  have h : parse "a.pdf" (.error "e") (.ok "x") (fun _ => []) =
      .ok (parseRecord "" []) := rfl
  exact ⟨h, parse_succeeded _ _ _ _ _ h⟩

/-- C9: `parse` is deterministic — the one language-level source of
nondeterminism, the enumeration order of the skills `set`, is cancelled by
the final sort, so any two enumerations of the same set produce the same
record, which is the record `parse` returns. -/
theorem parse_deterministic (path : String) (pdfRead : Except String (List String))
    (txtRead : Except String String) (ner : String → List Entity)
    (t : String) (e1 e2 : List String)
    (ht : textOf path pdfRead txtRead = .ok t)
    (h1 : e1.Perm (skillsAcc t (ner t)).dedup)
    (h2 : e2.Perm (skillsAcc t (ner t)).dedup) :
    parseRecordEnum t (ner t) e1 = parseRecordEnum t (ner t) e2 ∧
    parseRecordEnum t (ner t) e1 = parseRecord t (ner t) ∧
    parse path pdfRead txtRead ner = .ok (parseRecord t (ner t)) := by
  have k1 : List.insertionSort (· ≤ ·) e1 =
      List.insertionSort (· ≤ ·) (skillsAcc t (ner t)).dedup :=
    pySortedSet_perm_eq h1
  have k2 : List.insertionSort (· ≤ ·) e2 =
      List.insertionSort (· ≤ ·) (skillsAcc t (ner t)).dedup :=
    pySortedSet_perm_eq h2
  refine ⟨?_, ?_, ?_⟩
  · unfold parseRecordEnum
    rw [k1, k2]
  · unfold parseRecordEnum
    rw [show List.insertionSort (· ≤ ·) e1 = extract_skills t (ner t) from by
      rw [k1]; rfl]
    rfl
  · rw [parse, ht, Except.map]

/-- Witness for C9: two distinct enumerations of the skill set of a
concrete document produce the same record. -/
theorem parse_deterministic_witness :
    (["Python", "Sql"] : List String) ≠ ["Sql", "Python"] ∧
    parseRecordEnum "python sql" [] ["Python", "Sql"] =
      parseRecordEnum "python sql" [] ["Sql", "Python"] :=
  ⟨by decide,
   (parse_deterministic "a.txt" (.ok []) (.ok "python sql") (fun _ => [])
     "python sql" ["Python", "Sql"] ["Sql", "Python"]
     rfl (by decide) (by decide)).1⟩

/-! ## C3: the experience loop -/

theorem expLoop_eq_filterMap (ls : List (List Char)) :
    expLoop ls = ls.filterMap fun sec =>
      if sectionHit jobPatterns sec then some (mkExpEntry sec) else none := by
  induction ls with
  | nil => rfl
  | cons sec rest ih =>
    by_cases h : sectionHit jobPatterns sec
    · simp [expLoop, h, List.filterMap_cons, ih]
    · simp [expLoop, h, List.filterMap_cons, ih]

/-- C3: the experience extractor returns at most five records, obtained by
keeping, in document order, at most one record per blank-line-delimited
section, where a section's pattern loop stops at the first matching
family (the result never depends on the families after a hit). -/
theorem extract_experience_spec (text : String) :
    (extract_experience text).length ≤ 5 ∧
    extract_experience text =
      ((pySplit blankRE text.toList).filterMap fun sec =>
        if sectionHit jobPatterns sec then some (mkExpEntry sec) else none).take 5 ∧
    (∀ sec rest, (reSearch jobF1 sec).isSome = true →
      sectionHit (jobF1 :: rest) sec = true) := by
  refine ⟨?_, ?_, fun sec rest h => ?_⟩
  · exact (List.length_take_le _ _)
  · rw [extract_experience, expLoop_eq_filterMap]
  · simp [sectionHit, h]

/-- Witness for C3: a seven-section document, each section qualifying via
the first family; the pattern loop hits on the first family and the
extractor keeps five records. -/
theorem extract_experience_spec_witness :
    (reSearch jobF1 "Engineer".toList).isSome = true ∧
    sectionHit (jobF1 :: [jobF2]) "Engineer".toList = true ∧
    (extract_experience
      "Engineer\n\nEngineer\n\nEngineer\n\nEngineer\n\nEngineer\n\nEngineer\n\nEngineer").length ≤ 5 :=
  ⟨by decide,
   (extract_experience_spec "x").2.2 "Engineer".toList [jobF2] (by decide),
   (extract_experience_spec
      "Engineer\n\nEngineer\n\nEngineer\n\nEngineer\n\nEngineer\n\nEngineer\n\nEngineer").1⟩

/-! ## C5: the education context window -/

/-- C5: for a match span `[s, e)` inside the document, the education
context is the document slice made of exactly `min 200 s` characters
before the match, the match itself, and `min 200 (len - e)` characters
after it, stripped of surrounding whitespace. -/
theorem education_context_window (l : List Char) (s e : Nat)
    (hse : s ≤ e) (hel : e ≤ l.length) :
    extract_education_context l s e =
      String.mk (pyStrip ((l.take s).drop (s - min 200 s) ++
        (l.take e).drop s ++ (l.drop e).take (min 200 (l.length - e)))) ∧
    ((l.take s).drop (s - min 200 s)).length = min 200 s ∧
    ((l.drop e).take (min 200 (l.length - e))).length = min 200 (l.length - e) := by
  have hclip : ∀ k : Nat, l.take (min l.length k) = l.take k := by
    intro k
    rw [Nat.min_comm, ← List.take_take, List.take_length]
  have key : (l.take (min l.length (e + 200))).drop (s - 200) =
      (l.take s).drop (s - min 200 s) ++ (l.take e).drop s ++
        (l.drop e).take (min 200 (l.length - e)) := by
    rw [hclip (e + 200), List.take_add, List.drop_append_eq_append_drop]
    have hlen_e : (l.take e).length = e := List.length_take_of_le hel
    have h0 : s - 200 - (l.take e).length = 0 := by rw [hlen_e]; omega
    rw [h0, List.drop_zero]
    have hsplit : l.take e = l.take s ++ (l.take e).drop s := by
      conv_lhs => rw [← List.take_append_drop s (l.take e)]
      rw [List.take_take, Nat.min_eq_left hse]
    have hlen_s : (l.take s).length = s :=
      List.length_take_of_le (le_trans hse hel)
    have h1 : s - 200 - (l.take s).length = 0 := by rw [hlen_s]; omega
    have h2 : s - 200 = s - min 200 s := by omega
    have hBM : (l.take e).drop (s - 200) =
        (l.take s).drop (s - min 200 s) ++ (l.take e).drop s := by
      conv_lhs => rw [hsplit]
      rw [List.drop_append_eq_append_drop, h1, List.drop_zero, h2]
    have h3 : (l.drop e).take 200 = (l.drop e).take (min 200 (l.length - e)) := by
      have ht := List.take_take 200 (l.drop e).length (l.drop e)
      rw [List.take_length] at ht
      rw [ht, List.length_drop]
    rw [hBM, h3]
  refine ⟨?_, ?_, ?_⟩
  · rw [extract_education_context, key]
  · simp only [List.length_drop, List.length_take]
    omega
  · simp only [List.length_take, List.length_drop]
    omega

/-- Witness for C5 on a concrete short document and span. -/
theorem education_context_window_witness :
    extract_education_context "abcdefghij".toList 3 5 =
      String.mk (pyStrip (("abcdefghij".toList.take 3).drop (3 - min 200 3) ++
        ("abcdefghij".toList.take 5).drop 3 ++
        ("abcdefghij".toList.drop 5).take (min 200 ("abcdefghij".toList.length - 5)))) :=
  (education_context_window "abcdefghij".toList 3 5 (by decide) (by decide)).1

/-! ## C4: education entry order -/

theorem searchFrom_ge (re : RE) :
    ∀ (cs : List Char) (pos : Nat) (prev : Option Char) (p : Nat)
      (pv : Option Char) (r : MRes),
      searchFrom re pos prev cs = some (p, pv, r) → pos ≤ p := by
  intro cs
  induction cs with
  | nil =>
    intro pos prev p pv r h
    rw [searchFrom] at h
    split at h
    · cases h
      exact Nat.le_refl _
    · cases h
  | cons c cs' ih =>
    intro pos prev p pv r h
    rw [searchFrom] at h
    split at h
    · cases h
      exact Nat.le_refl _
    · exact Nat.le_of_succ_le (ih (pos + 1) (some c) p pv r h)

theorem finditFrom_lb (re : RE) :
    ∀ (fuel : Nat) (pos : Nat) (prev : Option Char) (cs : List Char)
      (x : Nat × MRes), x ∈ finditFrom re fuel pos prev cs → pos ≤ x.1 := by
  intro fuel
  induction fuel with
  | zero => intro pos prev cs x hx; cases hx
  | succ fuel ih =>
    intro pos prev cs x hx
    rw [finditFrom] at hx
    split at hx
    · cases hx
    · next p pv r hs =>
      have hp : pos ≤ p := searchFrom_ge re cs pos prev p pv r hs
      rcases List.mem_cons.mp hx with h | h
      · subst h
        exact hp
      · split at h
        · split at h
          · cases h
          · exact le_trans (by omega) (ih (p + 1) _ _ x h)
        · exact le_trans (by omega) (ih (p + r.consumed.length) _ _ x h)

theorem finditFrom_mono (re : RE) :
    ∀ (fuel : Nat) (pos : Nat) (prev : Option Char) (cs : List Char),
      (finditFrom re fuel pos prev cs).Pairwise (fun a b => a.1 < b.1) := by
  intro fuel
  induction fuel with
  | zero => intro pos prev cs; exact List.Pairwise.nil
  | succ fuel ih =>
    intro pos prev cs
    rw [finditFrom]
    split
    · exact List.Pairwise.nil
    · next p pv r hs =>
      refine List.Pairwise.cons (fun y hy => ?_) ?_
      · split at hy
        · split at hy
          · cases hy
          · exact lt_of_lt_of_le (by omega) (finditFrom_lb re fuel (p + 1) _ _ y hy)
        · next hne =>
          have hlen : 1 ≤ r.consumed.length := by
            cases hc : r.consumed with
            | nil => rw [hc] at hne; simp at hne
            | cons a t => simp [hc]
          exact lt_of_lt_of_le (by omega)
            (finditFrom_lb re fuel (p + r.consumed.length) _ _ y hy)
      · split
        · split
          · exact List.Pairwise.nil
          · exact ih (p + 1) _ _
        · exact ih (p + r.consumed.length) _ _

/-- Starts of `finditer` matches are strictly increasing. -/
theorem finditer_mono (re : RE) (l : List Char) :
    ((finditer re l).map Prod.fst).Pairwise (· < ·) :=
  List.pairwise_map.mpr (finditFrom_mono re (l.length + 1) 0 none l)

/-- Modelled from the claim's words (for comparison only): the education
entries tagged with their pattern index and match position. -/
def eduTagged (text : String) : List (Nat × Nat × EducationEntry) :=
  degreePatterns.enum.flatMap fun pi =>
    (finditer pi.2 text.toList).map fun pr =>
      (pi.1, pr.1, mkEduEntry text.toList pr.1 pr.2)

/-- Modelled from the claim's words (for comparison only): the education
entries reordered by match position first and pattern order second, as the
claim asserts. -/
def positionFirstEducation (text : String) : List EducationEntry :=
  (List.insertionSort
    (fun a b => a.2.1 < b.2.1 ∨ (a.2.1 = b.2.1 ∧ a.1 ≤ b.1))
    (eduTagged text)).map fun x => x.2.2

/-- C4 counterexample: on a document whose second-pattern match starts
before its first-pattern match, the code emits the first-pattern entry
first (pattern-major order), not the position-first order the claim
asserts. -/
theorem education_order_counterexample :
    (extract_education "Associate of Arts\nBachelor of Science").map
        EducationEntry.degree =
      ["Bachelor of Science", "Associate of Arts\nBachelor of Science"] ∧
    (positionFirstEducation "Associate of Arts\nBachelor of Science").map
        EducationEntry.degree =
      ["Associate of Arts\nBachelor of Science", "Bachelor of Science"] ∧
    extract_education "Associate of Arts\nBachelor of Science" ≠
      positionFirstEducation "Associate of Arts\nBachelor of Science" := by
  decide

/-- C4 (amended): one entry per `finditer` match of each degree pattern,
no deduplication (the length is the sum of the two match counts even when
spans overlap), ordered by pattern first and match position second. -/
theorem extract_education_order (text : String) :
    extract_education text =
      (finditer degree1 text.toList).map
        (fun pr => mkEduEntry text.toList pr.1 pr.2) ++
      (finditer degree2 text.toList).map
        (fun pr => mkEduEntry text.toList pr.1 pr.2) ∧
    (extract_education text).length =
      (finditer degree1 text.toList).length +
        (finditer degree2 text.toList).length ∧
    ((finditer degree1 text.toList).map Prod.fst).Pairwise (· < ·) ∧
    ((finditer degree2 text.toList).map Prod.fst).Pairwise (· < ·) := by
  refine ⟨?_, ?_, finditer_mono _ _, finditer_mono _ _⟩
  · simp [extract_education, degreePatterns]
  · simp [extract_education, degreePatterns]

/-! ## C6: engine soundness and the company pattern -/

theorem iterG_split {m : Option Char → List Char → List MRes}
    (hm : ∀ pv cs r, r ∈ m pv cs → r.consumed ++ r.rest = cs) :
    ∀ (n : Nat) (pv : Option Char) (cs : List Char) (r : MRes),
      r ∈ iterG m n pv cs → r.consumed ++ r.rest = cs := by
  intro n
  induction n with
  | zero =>
    intro pv cs r hr
    rw [iterG] at hr
    simp only [List.mem_singleton] at hr
    subst hr
    simp
  | succ n ih =>
    intro pv cs r hr
    rw [iterG] at hr
    rcases List.mem_append.mp hr with hr | hr
    · rcases List.mem_flatMap.mp hr with ⟨r1, h1, h2⟩
      split at h2
      · cases h2
      · rcases List.mem_map.mp h2 with ⟨r2, h2m, rfl⟩
        have e1 := hm pv cs r1 h1
        have e2 := ih _ _ r2 h2m
        simp only [mcat]
        rw [List.append_assoc, e2, e1]
    · simp only [List.mem_singleton] at hr
      subst hr
      simp

theorem iterL_split {m : Option Char → List Char → List MRes}
    (hm : ∀ pv cs r, r ∈ m pv cs → r.consumed ++ r.rest = cs) :
    ∀ (n : Nat) (pv : Option Char) (cs : List Char) (r : MRes),
      r ∈ iterL m n pv cs → r.consumed ++ r.rest = cs := by
  intro n
  induction n with
  | zero =>
    intro pv cs r hr
    rw [iterL] at hr
    simp only [List.mem_singleton] at hr
    subst hr
    simp
  | succ n ih =>
    intro pv cs r hr
    rw [iterL] at hr
    rcases List.mem_cons.mp hr with hr | hr
    · subst hr
      simp
    · rcases List.mem_flatMap.mp hr with ⟨r1, h1, h2⟩
      split at h2
      · cases h2
      · rcases List.mem_map.mp h2 with ⟨r2, h2m, rfl⟩
        have e1 := hm pv cs r1 h1
        have e2 := ih _ _ r2 h2m
        simp only [mcat]
        rw [List.append_assoc, e2, e1]

/-- Every way returned by the matcher decomposes the input: the consumed
prefix followed by the rest is the input. -/
theorem compile_split :
    ∀ (re : RE) (prev : Option Char) (cs : List Char) (r : MRes),
      r ∈ compile re prev cs → r.consumed ++ r.rest = cs := by
  intro re
  induction re with
  | eps =>
    intro prev cs r hr
    simp only [compile, List.mem_singleton] at hr
    subst hr
    simp
  | cls f =>
    intro prev cs r hr
    cases cs with
    | nil => simp [compile] at hr
    | cons c cs' =>
      simp only [compile] at hr
      split at hr
      · simp only [List.mem_singleton] at hr
        subst hr
        simp
      · cases hr
  | wordB =>
    intro prev cs r hr
    simp only [compile] at hr
    split at hr
    · simp only [List.mem_singleton] at hr
      subst hr
      simp
    · cases hr
  | cat a b iha ihb =>
    intro prev cs r hr
    simp only [compile] at hr
    rcases List.mem_flatMap.mp hr with ⟨r1, h1, h2⟩
    rcases List.mem_map.mp h2 with ⟨r2, h2m, rfl⟩
    have e1 := iha prev cs r1 h1
    have e2 := ihb _ _ r2 h2m
    simp only [mcat]
    rw [List.append_assoc, e2, e1]
  | alt a b iha ihb =>
    intro prev cs r hr
    simp only [compile] at hr
    rcases List.mem_append.mp hr with hr | hr
    · exact iha prev cs r hr
    · exact ihb prev cs r hr
  | grp a iha =>
    intro prev cs r hr
    simp only [compile] at hr
    rcases List.mem_map.mp hr with ⟨r0, h0, rfl⟩
    exact iha prev cs r0 h0
  | starG a iha =>
    intro prev cs r hr
    simp only [compile] at hr
    exact iterG_split (fun pv cs' r' h => iha pv cs' r' h) _ _ _ _ hr
  | starL a iha =>
    intro prev cs r hr
    simp only [compile] at hr
    exact iterL_split (fun pv cs' r' h => iha pv cs' r' h) _ _ _ _ hr
  | opt a iha =>
    intro prev cs r hr
    simp only [compile] at hr
    rcases List.mem_append.mp hr with hr | hr
    · exact iha prev cs r hr
    · simp only [List.mem_singleton] at hr
      subst hr
      simp

/-- A successful search decomposes the text: the match way belongs to the
pattern's ways on some suffix of the text. -/
theorem searchFrom_mem (re : RE) :
    ∀ (cs : List Char) (pos : Nat) (prev : Option Char) (p : Nat)
      (pv : Option Char) (r : MRes),
      searchFrom re pos prev cs = some (p, pv, r) →
      ∃ pre suffix, cs = pre ++ suffix ∧ r ∈ compile re pv suffix := by
  intro cs
  induction cs with
  | nil =>
    intro pos prev p pv r h
    rw [searchFrom] at h
    split at h
    · next r0 rest hc =>
      simp only [Option.some.injEq, Prod.mk.injEq] at h
      obtain ⟨h1, h2, h3⟩ := h
      subst h2
      subst h3
      exact ⟨[], [], rfl, by rw [hc]; exact List.mem_cons_self _ _⟩
    · cases h
  | cons c cs' ih =>
    intro pos prev p pv r h
    rw [searchFrom] at h
    split at h
    · next r0 rest hc =>
      simp only [Option.some.injEq, Prod.mk.injEq] at h
      obtain ⟨h1, h2, h3⟩ := h
      subst h2
      subst h3
      exact ⟨[], c :: cs', rfl, by rw [hc]; exact List.mem_cons_self _ _⟩
    · rcases ih (pos + 1) (some c) p pv r h with ⟨pre, suffix, heq, hm⟩
      exact ⟨c :: pre, suffix, by rw [heq]; rfl, hm⟩

theorem mem_compile_cls_inv {f : Char → Bool} {prev : Option Char}
    {cs : List Char} {r : MRes} (h : r ∈ compile (.cls f) prev cs) :
    ∃ c cs', cs = c :: cs' ∧ f c = true ∧ r = ⟨[c], none, cs'⟩ := by
  cases cs with
  | nil => simp [compile] at h
  | cons c cs' =>
    simp only [compile] at h
    split at h
    · next hf =>
      simp only [List.mem_singleton] at h
      exact ⟨c, cs', rfl, hf, h⟩
    · cases h

theorem mem_compile_cat_inv {a b : RE} {prev : Option Char} {cs : List Char}
    {r : MRes} (h : r ∈ compile (.cat a b) prev cs) :
    ∃ r1, r1 ∈ compile a prev cs ∧
      ∃ r2, r2 ∈ compile b (prevAfter r1.consumed prev) r1.rest ∧ r = mcat r1 r2 := by
  simp only [compile] at h
  rcases List.mem_flatMap.mp h with ⟨r1, h1, h2⟩
  rcases List.mem_map.mp h2 with ⟨r2, h2m, rfl⟩
  exact ⟨r1, h1, r2, h2m, rfl⟩

theorem mem_compile_alt_inv {a b : RE} {prev : Option Char} {cs : List Char}
    {r : MRes} (h : r ∈ compile (.alt a b) prev cs) :
    r ∈ compile a prev cs ∨ r ∈ compile b prev cs := by
  simp only [compile] at h
  exact List.mem_append.mp h

theorem mem_compile_grp_inv {a : RE} {prev : Option Char} {cs : List Char}
    {r : MRes} (h : r ∈ compile (.grp a) prev cs) :
    ∃ r0, r0 ∈ compile a prev cs ∧ r = ⟨r0.consumed, some r0.consumed, r0.rest⟩ := by
  simp only [compile] at h
  rcases List.mem_map.mp h with ⟨r0, h0, rfl⟩
  exact ⟨r0, h0, rfl⟩

theorem mem_compile_eps_inv {prev : Option Char} {cs : List Char} {r : MRes}
    (h : r ∈ compile .eps prev cs) : r = ⟨[], none, cs⟩ := by
  simpa [compile] using h

theorem iterG_cls_all {f : Char → Bool} :
    ∀ (n : Nat) (prev : Option Char) (cs : List Char) (r : MRes),
      r ∈ iterG (compile (.cls f)) n prev cs →
      (∀ x ∈ r.consumed, f x = true) ∧ r.grp = none := by
  intro n
  induction n with
  | zero =>
    intro prev cs r hr
    rw [iterG] at hr
    simp only [List.mem_singleton] at hr
    subst hr
    exact ⟨by simp, rfl⟩
  | succ n ih =>
    intro prev cs r hr
    rw [iterG] at hr
    rcases List.mem_append.mp hr with hr | hr
    · rcases List.mem_flatMap.mp hr with ⟨r1, h1, h2⟩
      split at h2
      · cases h2
      · rcases List.mem_map.mp h2 with ⟨r2, h2m, rfl⟩
        rcases mem_compile_cls_inv h1 with ⟨c, cs0, hcs, hf, rfl⟩
        rcases ih _ _ r2 h2m with ⟨hall, hgrp⟩
        refine ⟨fun x hx => ?_, by simp [mcat, hgrp]⟩
        simp only [mcat, List.cons_append, List.nil_append, List.mem_cons] at hx
        rcases hx with hx | hx
        · subst hx
          exact hf
        · exact hall x hx
    · simp only [List.mem_singleton] at hr
      subst hr
      exact ⟨by simp, rfl⟩

theorem iterL_cls_all {f : Char → Bool} :
    ∀ (n : Nat) (prev : Option Char) (cs : List Char) (r : MRes),
      r ∈ iterL (compile (.cls f)) n prev cs →
      (∀ x ∈ r.consumed, f x = true) ∧ r.grp = none := by
  intro n
  induction n with
  | zero =>
    intro prev cs r hr
    rw [iterL] at hr
    simp only [List.mem_singleton] at hr
    subst hr
    exact ⟨by simp, rfl⟩
  | succ n ih =>
    intro prev cs r hr
    rw [iterL] at hr
    rcases List.mem_cons.mp hr with hr | hr
    · subst hr
      exact ⟨by simp, rfl⟩
    · rcases List.mem_flatMap.mp hr with ⟨r1, h1, h2⟩
      split at h2
      · cases h2
      · rcases List.mem_map.mp h2 with ⟨r2, h2m, rfl⟩
        rcases mem_compile_cls_inv h1 with ⟨c, cs0, hcs, hf, rfl⟩
        rcases ih _ _ r2 h2m with ⟨hall, hgrp⟩
        refine ⟨fun x hx => ?_, by simp [mcat, hgrp]⟩
        simp only [mcat, List.cons_append, List.nil_append, List.mem_cons] at hx
        rcases hx with hx | hx
        · subst hx
          exact hf
        · exact hall x hx

/-- The terminator shapes of the company pattern. -/
def TermShape (term : List Char) : Prop :=
  term = ['|'] ∨ term = ['•'] ∨ term = ['\n'] ∨
  ∃ d1 d2, term = ['2', '0', d1, d2] ∧ d1.isDigit = true ∧ d2.isDigit = true

/-- The anatomy of a company match inside a section: somewhere in the
section the two letters a, t (in either case, not necessarily a standalone
word) are followed by nonempty whitespace, then the (not necessarily
capitalized) extracted phrase of word/space/`&,.` characters, then a
terminator. -/
def CompanyShape (sec : List Char) (c : String) : Prop :=
  ∃ pre a t ws g term post,
    sec = pre ++ [a, t] ++ ws ++ g ++ term ++ post ∧
    a.toLower = 'a' ∧ t.toLower = 't' ∧
    ws ≠ [] ∧ (∀ x ∈ ws, isPySpace x = true) ∧
    c = String.mk g ∧ g ≠ [] ∧ (∀ x ∈ g, isCompanyChar x = true) ∧
    TermShape term

theorem termRE_inv {prev : Option Char} {cs : List Char} {r : MRes}
    (h : r ∈ compile termRE prev cs) :
    TermShape r.consumed ∧ r.grp = none := by
  rw [termRE] at h
  rcases mem_compile_alt_inv h with h | h
  · rcases mem_compile_cls_inv (by simpa [chr] using h) with ⟨c, cs', -, hf, rfl⟩
    exact ⟨Or.inl (by simp [eq_of_beq hf]), rfl⟩
  rcases mem_compile_alt_inv h with h | h
  · rcases mem_compile_cls_inv (by simpa [chr] using h) with ⟨c, cs', -, hf, rfl⟩
    exact ⟨Or.inr (Or.inl (by simp [eq_of_beq hf])), rfl⟩
  rcases mem_compile_alt_inv h with h | h
  · rcases mem_compile_cls_inv (by simpa [chr] using h) with ⟨c, cs', -, hf, rfl⟩
    exact ⟨Or.inr (Or.inr (Or.inl (by simp [eq_of_beq hf]))), rfl⟩
  · simp only [catList, List.foldr, chr] at h
    rcases mem_compile_cat_inv h with ⟨r1, h1, rB, hB, rfl⟩
    rcases mem_compile_cls_inv h1 with ⟨c1, cs1, -, hf1, rfl⟩
    rcases mem_compile_cat_inv hB with ⟨r2, h2, rC, hC, rfl⟩
    rcases mem_compile_cls_inv h2 with ⟨c2, cs2, -, hf2, rfl⟩
    rcases mem_compile_cat_inv hC with ⟨r3, h3, rD, hD, rfl⟩
    rcases mem_compile_cls_inv (by simpa [digitRE] using h3) with ⟨c3, cs3, -, hf3, rfl⟩
    rcases mem_compile_cat_inv hD with ⟨r4, h4, rE, hE, rfl⟩
    rcases mem_compile_cls_inv (by simpa [digitRE] using h4) with ⟨c4, cs4, -, hf4, rfl⟩
    have hEe := mem_compile_eps_inv hE
    subst hEe
    refine ⟨Or.inr (Or.inr (Or.inr ⟨c3, c4, ?_, hf3, hf4⟩)), rfl⟩
    simp [mcat, eq_of_beq hf1, eq_of_beq hf2]

/-- Soundness of the company extraction: a returned company name always
comes from a match of the stated anatomy. -/
theorem companyOf_shape (sec : List Char) (c : String)
    (h : companyOf sec = some c) : CompanyShape sec c := by
  rw [companyOf] at h
  cases hs : reSearch companyRE sec with
  | none => rw [hs] at h; cases h
  | some x =>
    obtain ⟨p, pv, r⟩ := x
    rw [hs] at h
    simp only [Option.some_bind] at h
    rcases Option.map_eq_some'.mp h with ⟨g, hg, rfl⟩
    rcases searchFrom_mem companyRE sec 0 none p pv r hs with ⟨pre, suffix, hsec, hmem⟩
    have hsplit := compile_split companyRE pv suffix r hmem
    rw [companyRE] at hmem
    rcases mem_compile_cat_inv hmem with ⟨rA, hA, rB, hB, rfl⟩
    rcases mem_compile_cls_inv (by simpa [chrCI] using hA) with ⟨a, s1, hs1, hfa, rfl⟩
    rcases mem_compile_cat_inv hB with ⟨rT, hT, rC, hC, rfl⟩
    rcases mem_compile_cls_inv (by simpa [chrCI] using hT) with ⟨t, s2, hs2, hft, rfl⟩
    simp only [plusG, spRE] at hC
    rcases mem_compile_cat_inv hC with ⟨rS, hS, rD, hD, rfl⟩
    rcases mem_compile_cat_inv hS with ⟨rW, hW, rS2, hS2, rfl⟩
    rcases mem_compile_cls_inv hW with ⟨w, s3, hs3, hfw, rfl⟩
    simp only [compile] at hS2
    rcases iterG_cls_all _ _ _ _ hS2 with ⟨hallS, hgrpS⟩
    rcases mem_compile_cat_inv hD with ⟨rG, hG, rE, hEm, rfl⟩
    rcases mem_compile_grp_inv hG with ⟨r0, h0, rfl⟩
    simp only [plusL] at h0
    rcases mem_compile_cat_inv h0 with ⟨rg1, hg1, rg2, hg2, rfl⟩
    rcases mem_compile_cls_inv hg1 with ⟨c0, s4, hs4, hfc0, rfl⟩
    simp only [compile] at hg2
    rcases iterL_cls_all _ _ _ _ hg2 with ⟨hallG, hgrpG⟩
    rcases termRE_inv hEm with ⟨hterm, hgrpE⟩
    have hgeq : g = c0 :: rg2.consumed := by
      simp only [mcat, hgrpS, hgrpE, Option.orElse_none, Option.none_orElse,
        List.cons_append, List.nil_append, Option.some.injEq] at hg
      exact hg.symm
    refine ⟨pre, a, t, w :: rS2.consumed, c0 :: rg2.consumed, rE.consumed, rE.rest,
      ?_, ?_, ?_, by simp, ?_, by rw [hgeq], by simp, ?_, hterm⟩
    · rw [hsec, ← hsplit]
      simp [mcat, List.append_assoc]
    · have := eq_of_beq hfa
      simpa using this
    · have := eq_of_beq hft
      simpa using this
    · intro x hx
      rcases List.mem_cons.mp hx with hx | hx
      · subst hx
        exact hfw
      · exact hallS x hx
    · intro x hx
      rcases List.mem_cons.mp hx with hx | hx
      · subst hx
        exact hfc0
      · exact hallG x hx

/-- C6 counterexample: the section "Engineer combat in 2019" qualifies,
contains no standalone word "at" and no capitalized phrase after one, yet
the extracted company is "in " — the pattern anchors on the bare substring
"at" (here inside "combat") and does not require capitalization. -/
theorem experience_company_counterexample :
    sectionHit jobPatterns "Engineer combat in 2019".toList = true ∧
    (mkExpEntry "Engineer combat in 2019".toList).company = some "in " ∧
    "at".toList ∉ splitRuns isWordChar "Engineer combat in 2019".toList ∧
    ("in ".toList.all fun c => !c.isUpper) = true := by
  decide

/-- C6 (amended): for every section, a returned company name is the first
capture of the pattern — the two letters a, t (case-insensitively, not
necessarily a standalone word), nonempty whitespace, then the lazily
matched (not necessarily capitalized) phrase of word/space/`&,.`
characters, terminated by a `|`, a bullet, a line break, or `20` plus two
digits; when the section contains no such match the company is null. -/
theorem experience_company_spec (sec : List Char) :
    (∀ c, companyOf sec = some c → CompanyShape sec c) ∧
    ((¬ ∃ c, CompanyShape sec c) → companyOf sec = none) ∧
    (∀ s, (mkExpEntry s).company = companyOf s) := by
  refine ⟨companyOf_shape sec, fun hn => ?_, fun s => rfl⟩
  cases hc : companyOf sec with
  | none => rfl
  | some c => exact absurd ⟨c, companyOf_shape sec c hc⟩ hn

/-- Witness for C6 (amended) on a concrete section with a company. -/
theorem experience_company_spec_witness :
    companyOf "Engineer at Acme|x".toList = some "Acme" ∧
    CompanyShape "Engineer at Acme|x".toList "Acme" :=
  ⟨by decide,
   (experience_company_spec "Engineer at Acme|x".toList).1 "Acme" (by decide)⟩

end ResumeParser
